import Mathlib

/-!
# threadAccumulate: block-parallel accumulation (src/acc.cpp)

A shallow embedding of `accumulate_block` and `multi_accumulate`.

* A random-access iterator into the input vector is its offset from `first`
  (a natural number); the input sequence is a list.
* The element type `T` with its `operator+` and its value-initialised default
  `T()` is a type `T` with a function `add` and a value `dflt`.
* `unsigned long` values are natural numbers: every offset computed by the
  function is at most `length`, and `num_threads - 1` is taken with
  `num_threads >= 1`, so no subtraction or multiplication leaves the range of
  the machine type on the paths modelled here.
* A spawned thread is the block descriptor it was constructed with
  (`block_start`, `block_end`, slot index); running it is one call of
  `accumulate_block` on its slot.  `multi_accumulate_with` runs the spawned
  blocks in spawn order and then the inline block; `multi_accumulate_sched`
  runs the same blocks in an arbitrary order.
* The `int` instantiation used by `main` is the type `CInt` of the integers in
  `[-2^31, 2^31)` with addition wrapped modulo 2^32 (`wrap32`).
* The durations measured by `main` are rational numbers of seconds, given per
  trial; `main_loop` and `main_averages` are the totals and the printed values.
-/

namespace ThreadAccumulate

/-! ## Definitions -/

/-- The library fold `std::accumulate(first, last, init)` over the elements of the
range: `for (; first != last; ++first) init = init + *first; return init;`. -/
def accumulate {T : Type} (add : T → T → T) : List T → T → T
  | [], init => init
  | x :: xs, init => accumulate add xs (add init x)

/-- The elements of the iterator range `[first, last)` of the sequence `S`,
both iterators given as offsets from the beginning of `S`. -/
def range_of {T : Type} (S : List T) (first last : Nat) : List T :=
  (S.take last).drop first

/-- The functor `accumulate_block` (acc.cpp lines 32-39):
`result = std::accumulate(first, last, result)`; the new value of the slot. -/
def accumulate_block {T : Type} (add : T → T → T) (S : List T)
    (first last : Nat) (result : T) : T :=
  accumulate add (range_of S first last) result

/-- The arguments one block is processed with: the iterator pair and the
index of the slot of `results` passed by reference. -/
structure Block where
  first : Nat
  last : Nat
  slot : Nat
deriving DecidableEq

/-- Line 50: `num_threads = hardware_threads != 0 ? hardware_threads : 2`. -/
def num_threads (hardware_threads : Nat) : Nat :=
  if hardware_threads ≠ 0 then hardware_threads else 2

/-- Line 60: the value `num_threads - 1` as computed on a 64-bit
`unsigned long` (subtraction modulo 2^64). -/
def threads_size (num_threads : Nat) : Nat :=
  (num_threads + 2 ^ 64 - 1) % 2 ^ 64

/-- One pass of the launching loop (lines 66-77) for loop counter `i`; the state
is the cursor `block_start` and the threads constructed so far. -/
def launch_step (block_size : Nat) (st : Nat × List Block) (i : Nat) :
    Nat × List Block :=
  let block_start := st.1
  let block_end := block_start + block_size
  (block_end, st.2 ++ [⟨block_start, block_end, i⟩])

/-- The launching loop (lines 62-78): `for (i = 0; i < num_threads - 1; ++i)`,
starting with `block_start = first`. -/
def launch (block_size num_threads : Nat) : Nat × List Block :=
  (List.range (num_threads - 1)).foldl (launch_step block_size) (0, [])

/-- All blocks of one call for a range of `length` elements: the blocks given
to the spawned threads, then the block processed by the calling thread
(lines 81-82: `[block_start, last)` into `results[num_threads-1]`). -/
def blocks (length num_threads : Nat) : List Block :=
  let block_size := length / num_threads
  let st := launch block_size num_threads
  st.2 ++ [⟨st.1, length, num_threads - 1⟩]

/-- Running one block: `accumulate_block()(first, last, results[slot])`. -/
def run_block {T : Type} (add : T → T → T) (S : List T) (results : List T)
    (b : Block) : List T :=
  results.modify (accumulate_block add S b.first b.last) b.slot

/-- Running a list of blocks one after the other. -/
def run_blocks {T : Type} (add : T → T → T) (S : List T) (results : List T)
    (bs : List Block) : List T :=
  bs.foldl (run_block add S) results

/-- The vector `results` when all blocks have been processed (line 86):
created as `num_threads` default values (line 57), then written by the blocks. -/
def slot_results {T : Type} (add : T → T → T) (dflt : T) (num_threads : Nat)
    (S : List T) : List T :=
  run_blocks add S (List.replicate num_threads dflt) (blocks S.length num_threads)

/-- The body of `multi_accumulate` from line 53 on, for a given `num_threads`;
line 88 returns `std::accumulate(results.begin(), results.end(), init)`. -/
def multi_accumulate_with {T : Type} (add : T → T → T) (dflt : T)
    (num_threads : Nat) (S : List T) (init : T) : T :=
  accumulate add (slot_results add dflt num_threads S) init

/-- The function `multi_accumulate` (lines 41-89); the value reported by
`thread::hardware_concurrency()` is the parameter `hardware_threads`. -/
def multi_accumulate {T : Type} (add : T → T → T) (dflt : T)
    (hardware_threads : Nat) (S : List T) (init : T) : T :=
  multi_accumulate_with add dflt (num_threads hardware_threads) S init

/-- A call of `multi_accumulate` in which the blocks are processed in the order
`sched` instead of the spawn order. -/
def multi_accumulate_sched {T : Type} (add : T → T → T) (dflt : T)
    (num_threads : Nat) (S : List T) (init : T) (sched : List Block) : T :=
  accumulate add (run_blocks add S (List.replicate num_threads dflt) sched) init

/-- Addition of mathematical integers as the `operator+` of the element type. -/
def int_add (a b : Int) : Int := a + b

/-- Concatenation as the `operator+` of the element type (as for `std::string`),
with sequences of numbers standing for strings; the default value is the
empty sequence. -/
def seq_append (a b : List Nat) : List Nat := a ++ b

/-- The state of the launching loop (lines 62-78) after its first `k` passes:
the cursor `block_start` and the threads constructed so far. -/
def launch_after (block_size k : Nat) : Nat × List Block :=
  (List.range k).foldl (launch_step block_size) (0, [])

/-- The value a 32-bit two's-complement `int` holds for the mathematical
integer `x` when arithmetic wraps around modulo 2^32. -/
def wrap32 (x : Int) : Int :=
  (x + 2147483648) % 4294967296 - 2147483648

/-- The values of the type `int` (32 bits, two's complement). -/
def CInt : Type :=
  { x : Int // -2147483648 ≤ x ∧ x < 2147483648 }

instance : DecidableEq CInt :=
  fun a b => decidable_of_iff (a.val = b.val) Subtype.ext_iff.symm

/-- The `operator+` of `int` with wrap-around modulo 2^32. -/
def cint_add (a b : CInt) : CInt :=
  ⟨wrap32 (a.val + b.val), by unfold wrap32; omega, by unfold wrap32; omega⟩

/-- The value-initialised `int`, `int()`. -/
def cint_zero : CInt :=
  ⟨0, by decide⟩

/-- Line 94 of `main`: `vector<int> largeDataSet(100000000, 9999)`. -/
def largeDataSet : List CInt :=
  List.replicate 100000000 ⟨9999, by decide⟩

/-- The timing loop of `main` (lines 98-118), `for (int i = 0; i < 10; i++)`:
pass `i` adds the duration measured for the single-threaded run to
`singletime` and the one of the multi-threaded run to `multitime`, both
starting at 0.  Durations are rational numbers of seconds. -/
def main_loop (single multi : Nat → ℚ) : ℚ × ℚ :=
  (List.range 10).foldl (fun t i => (t.1 + single i, t.2 + multi i)) (0, 0)

/-- Lines 119-120 of `main`: the two averaged durations printed,
`singletime/8` and `multitime/8`. -/
def main_averages (single multi : Nat → ℚ) : ℚ × ℚ :=
  ((main_loop single multi).1 / 8, (main_loop single multi).2 / 8)

/-! ## Lemmas on the fold and on the launching loop -/

theorem accumulate_eq_foldl {T : Type} (add : T → T → T) (xs : List T) (init : T) :
    accumulate add xs init = xs.foldl add init := by
  induction xs generalizing init with
  | nil => rfl
  | cons x xs ih => simp [accumulate, ih]

theorem accumulate_append {T : Type} (add : T → T → T) (xs ys : List T) (init : T) :
    accumulate add (xs ++ ys) init = accumulate add ys (accumulate add xs init) := by
  simp [accumulate_eq_foldl]

theorem launch_loop_eq (block_size k : Nat) :
    (List.range k).foldl (launch_step block_size) (0, []) =
      (k * block_size,
        (List.range k).map (fun i => (⟨i * block_size, (i + 1) * block_size, i⟩ : Block))) := by
  induction k with
  | zero => simp
  | succ k ih =>
    rw [List.range_succ, List.foldl_append, ih]
    simp [launch_step, Nat.succ_mul]

/-- The blocks in closed form: block `i` of the spawned ones is
`[i * block_size, (i+1) * block_size)` for slot `i`. -/
theorem blocks_eq (length num_threads : Nat) :
    blocks length num_threads =
      (List.range (num_threads - 1)).map
        (fun i => (⟨i * (length / num_threads), (i + 1) * (length / num_threads), i⟩ : Block))
      ++ [⟨(num_threads - 1) * (length / num_threads), length, num_threads - 1⟩] := by
  simp [blocks, launch, launch_loop_eq]

theorem blocks_length (length num_threads : Nat) (h : 1 ≤ num_threads) :
    (blocks length num_threads).length = num_threads := by
  simp [blocks_eq]; omega

theorem blocks_getElem?_lt (length num_threads i : Nat) (h : i < num_threads - 1) :
    (blocks length num_threads)[i]? =
      some ⟨i * (length / num_threads), (i + 1) * (length / num_threads), i⟩ := by
  rw [blocks_eq, List.getElem?_append_left (by simpa using h)]
  simp [List.getElem?_range h]

theorem blocks_getElem?_last (length num_threads : Nat) :
    (blocks length num_threads)[num_threads - 1]? =
      some ⟨(num_threads - 1) * (length / num_threads), length, num_threads - 1⟩ := by
  rw [blocks_eq, List.getElem?_append_right (by simp)]
  simp

/-- Block number `i` of a call writes slot number `i`. -/
theorem blocks_slot (length num_threads i : Nat) (b : Block)
    (h : (blocks length num_threads)[i]? = some b) : b.slot = i := by
  by_cases hi : i < num_threads - 1
  · rw [blocks_getElem?_lt _ _ _ hi] at h
    cases h; rfl
  · have hlen : (blocks length num_threads).length = num_threads - 1 + 1 := by
      simp [blocks_eq]
    have hlt : i < (blocks length num_threads).length := by
      rcases List.getElem?_eq_some_iff.mp h with ⟨hl, _⟩
      exact hl
    have : i = num_threads - 1 := by omega
    subst this
    rw [blocks_getElem?_last] at h
    cases h; rfl

theorem flatten_spawned (T : Type) (S : List T) (block_size k : Nat) :
    ((List.range k).map
      (fun i => range_of S (i * block_size) ((i + 1) * block_size))).flatten
      = S.take (k * block_size) := by
  induction k with
  | zero => simp
  | succ k ih =>
    rw [List.range_succ, List.map_append, List.flatten_append, ih]
    simp only [List.map_cons, List.map_nil, List.flatten_cons, List.flatten_nil,
      List.append_nil, range_of]
    have h : S.take (k * block_size) =
        (S.take ((k + 1) * block_size)).take (k * block_size) := by
      rw [List.take_take, Nat.min_eq_left (by nlinarith)]
    rw [h, List.take_append_drop]

/-- Concatenating the element ranges of the blocks in index order gives the
input sequence back. -/
theorem flatten_blocks (T : Type) (S : List T) (num_threads : Nat) :
    ((blocks S.length num_threads).map (fun b => range_of S b.first b.last)).flatten = S := by
  rw [blocks_eq]
  simp only [List.map_append, List.map_map, List.flatten_append, List.map_cons, List.map_nil,
    List.flatten_cons, List.flatten_nil, List.append_nil]
  have h := flatten_spawned T S (S.length / num_threads) (num_threads - 1)
  simp only [Function.comp_def] at *
  rw [h]
  simp [range_of]

/-! ## Lemmas on running blocks -/

theorem run_blocks_length {T : Type} (add : T → T → T) (S : List T) (bs : List Block)
    (results : List T) : (run_blocks add S results bs).length = results.length := by
  induction bs generalizing results with
  | nil => rfl
  | cons b bs ih =>
    show (run_blocks add S (run_block add S results b) bs).length = results.length
    rw [ih]; simp [run_block]

/-- A slot that no block of the list names is not changed. -/
theorem run_blocks_getElem?_other {T : Type} (add : T → T → T) (S : List T)
    (bs : List Block) (results : List T) (j : Nat) (h : ∀ b ∈ bs, b.slot ≠ j) :
    (run_blocks add S results bs)[j]? = results[j]? := by
  induction bs generalizing results with
  | nil => rfl
  | cons b bs ih =>
    show (run_blocks add S (run_block add S results b) bs)[j]? = results[j]?
    rw [ih _ (fun c hc => h c (List.mem_cons_of_mem _ hc))]
    exact List.getElem?_modify_ne _ _ (h b (List.mem_cons_self _ _))

/-- When no two blocks of the list name the same slot, the slot of a block
ends as the fold of that block onto the old value of the slot. -/
theorem run_blocks_getElem?_slot {T : Type} (add : T → T → T) (S : List T)
    (bs : List Block) (results : List T) (b : Block)
    (hnd : (bs.map Block.slot).Nodup) (hb : b ∈ bs) :
    (run_blocks add S results bs)[b.slot]? =
      results[b.slot]?.map (accumulate_block add S b.first b.last) := by
  induction bs generalizing results with
  | nil => cases hb
  | cons c bs ih =>
    rw [List.map_cons, List.nodup_cons] at hnd
    show (run_blocks add S (run_block add S results c) bs)[b.slot]? = _
    rcases List.mem_cons.mp hb with hbc | hbs
    · subst hbc
      rw [run_blocks_getElem?_other]
      · simp [run_block]
      · intro d hd hslot
        exact hnd.1 (hslot ▸ List.mem_map_of_mem Block.slot hd)
    · rw [ih _ hnd.2 hbs]
      have hne : c.slot ≠ b.slot := fun hslot =>
        hnd.1 (hslot ▸ List.mem_map_of_mem Block.slot hbs)
      simp [run_block, List.getElem?_modify_ne _ _ hne]

theorem blocks_map_slot (length num_threads : Nat) :
    (blocks length num_threads).map Block.slot = List.range (num_threads - 1 + 1) := by
  rw [blocks_eq, List.range_succ]
  simp [Function.comp_def]

/-- No two blocks of a call are given the same slot of `results`. -/
theorem blocks_slot_nodup (length num_threads : Nat) :
    ((blocks length num_threads).map Block.slot).Nodup := by
  rw [blocks_map_slot]
  exact List.nodup_range _

/-- Slot `i` of `results` holds, after the blocks have run, the fold of block
`i` onto the default value. -/
theorem slot_results_eq {T : Type} (add : T → T → T) (dflt : T) (num_threads : Nat)
    (S : List T) (h : 1 ≤ num_threads) :
    slot_results add dflt num_threads S =
      (blocks S.length num_threads).map
        (fun b => accumulate_block add S b.first b.last dflt) := by
  apply List.ext_getElem?
  intro i
  by_cases hi : i < num_threads
  · have hlen := blocks_length S.length num_threads h
    have hi2 : i < (blocks S.length num_threads).length := by omega
    have hget : (blocks S.length num_threads)[i]? = some ((blocks S.length num_threads)[i]) :=
      List.getElem?_eq_getElem hi2
    have hslot := blocks_slot _ _ _ _ hget
    have hmem : (blocks S.length num_threads)[i] ∈ blocks S.length num_threads :=
      List.getElem_mem hi2
    have key := run_blocks_getElem?_slot add S _ (List.replicate num_threads dflt) _
      (blocks_slot_nodup S.length num_threads) hmem
    rw [hslot] at key
    rw [slot_results, key, List.getElem?_map, hget]
    simp [List.getElem?_replicate, hi]
  · have h1 : (slot_results add dflt num_threads S).length ≤ i := by
      simp [slot_results, run_blocks_length]; omega
    have h2 : ((blocks S.length num_threads).map
        (fun b => accumulate_block add S b.first b.last dflt)).length ≤ i := by
      simp [blocks_length _ _ h]; omega
    rw [List.getElem?_eq_none h1, List.getElem?_eq_none h2]

/-- Folding the folds of the pieces equals folding the concatenation, for an
associative operation with `e` as a right identity. -/
theorem accumulate_map_accumulate {T : Type} (add : T → T → T) (e : T)
    (hassoc : ∀ a b c, add (add a b) c = add a (add b c))
    (hid : ∀ a, add a e = a) (Ls : List (List T)) (init : T) :
    accumulate add (Ls.map (fun L => accumulate add L e)) init =
      accumulate add Ls.flatten init := by
  have push : ∀ (L : List T) (a b : T),
      add a (accumulate add L b) = accumulate add L (add a b) := by
    intro L
    induction L with
    | nil => intro a b; rfl
    | cons x xs ih => intro a b; simp [accumulate, ih, hassoc]
  induction Ls generalizing init with
  | nil => rfl
  | cons L Ls ih =>
    simp only [List.map_cons, List.flatten_cons, accumulate, accumulate_append]
    rw [ih, push, hid]

/-- The result of a call for an associative operation whose default value is
a right identity: the sequential fold. -/
theorem multi_accumulate_with_eq {T : Type} (add : T → T → T) (dflt : T)
    (hassoc : ∀ a b c, add (add a b) c = add a (add b c))
    (hid : ∀ a, add a dflt = a) (num_threads : Nat) (h : 1 ≤ num_threads)
    (S : List T) (init : T) :
    multi_accumulate_with add dflt num_threads S init = accumulate add S init := by
  rw [multi_accumulate_with, slot_results_eq add dflt num_threads S h]
  have h1 : (blocks S.length num_threads).map
      (fun b => accumulate_block add S b.first b.last dflt) =
      ((blocks S.length num_threads).map (fun b => range_of S b.first b.last)).map
        (fun L => accumulate add L dflt) := by
    simp [accumulate_block, Function.comp_def]
  rw [h1, accumulate_map_accumulate add dflt hassoc hid, flatten_blocks]

theorem accumulate_int_add (S : List Int) (v : Int) :
    accumulate int_add S v = v + S.sum := by
  induction S generalizing v with
  | nil => simp [accumulate]
  | cons x xs ih => simp [accumulate, ih, int_add, add_assoc]

theorem num_threads_pos (hardware_threads : Nat) : 1 ≤ num_threads hardware_threads := by
  unfold num_threads
  split <;> omega

theorem blocks_getElem?_cases (length num_threads i : Nat) (b : Block)
    (h : (blocks length num_threads)[i]? = some b) :
    (i < num_threads - 1 ∧
      b = ⟨i * (length / num_threads), (i + 1) * (length / num_threads), i⟩) ∨
    (i = num_threads - 1 ∧
      b = ⟨(num_threads - 1) * (length / num_threads), length, num_threads - 1⟩) := by
  by_cases hi : i < num_threads - 1
  · rw [blocks_getElem?_lt _ _ _ hi] at h
    exact Or.inl ⟨hi, (Option.some.inj h).symm⟩
  · have hlen : (blocks length num_threads).length = num_threads - 1 + 1 := by
      simp [blocks_eq]
    have hlt : i < (blocks length num_threads).length :=
      (List.getElem?_eq_some_iff.mp h).1
    have : i = num_threads - 1 := by omega
    subst this
    rw [blocks_getElem?_last] at h
    exact Or.inr ⟨rfl, (Option.some.inj h).symm⟩

/-- The cursor after `k` of the `num_threads - 1` spawned blocks is inside the range. -/
theorem cursor_le (length num_threads k : Nat) (h : 1 ≤ num_threads)
    (hk : k ≤ num_threads - 1) : k * (length / num_threads) ≤ length := by
  calc k * (length / num_threads)
      ≤ num_threads * (length / num_threads) := Nat.mul_le_mul_right _ (by omega)
    _ ≤ length := Nat.mul_div_le length num_threads

/-- Integer instance of the fold equation. -/
theorem int_fold_of_blocks (S : List Int) (v : Int) (P : Nat) (hP : 1 ≤ P) :
    multi_accumulate_with int_add 0 P S v = v + S.sum := by
  rw [multi_accumulate_with_eq int_add 0 (fun a b c => Int.add_assoc a b c)
    (fun a => Int.add_zero a) P hP S v, accumulate_int_add]

/-- Extending a range by the element at its end appends that element. -/
theorem range_of_succ {T : Type} (S : List T) (first last : Nat) (x : T)
    (hfl : first ≤ last) (hx : S[last]? = some x) :
    range_of S first (last + 1) = range_of S first last ++ [x] := by
  have hlt : last < S.length := (List.getElem?_eq_some_iff.mp hx).1
  unfold range_of
  rw [List.take_succ, hx]
  simp only [Option.toList_some]
  rw [List.drop_append_of_le_length (by rw [List.length_take]; omega)]

/-- Processing the same blocks in another order leaves the same `results`,
when no two of the blocks name the same slot. -/
theorem run_blocks_perm {T : Type} (add : T → T → T) (S : List T) (results : List T)
    (bs cs : List Block) (hperm : bs.Perm cs) (hnd : (cs.map Block.slot).Nodup) :
    run_blocks add S results bs = run_blocks add S results cs := by
  have hnd2 : (bs.map Block.slot).Nodup := (hperm.map Block.slot).nodup_iff.mpr hnd
  apply List.ext_getElem?
  intro j
  by_cases hj : ∃ b, b ∈ bs ∧ b.slot = j
  · obtain ⟨b, hb, rfl⟩ := hj
    rw [run_blocks_getElem?_slot add S bs results b hnd2 hb,
      run_blocks_getElem?_slot add S cs results b hnd (hperm.mem_iff.mp hb)]
  · have h1 : ∀ b ∈ bs, b.slot ≠ j := fun b hb hs => hj ⟨b, hb, hs⟩
    have h2 : ∀ b ∈ cs, b.slot ≠ j := fun b hb hs => hj ⟨b, hperm.mem_iff.mpr hb, hs⟩
    rw [run_blocks_getElem?_other add S bs results j h1,
      run_blocks_getElem?_other add S cs results j h2]

/-! ## Lemmas on 32-bit addition -/

theorem wrap32_of_range (x : Int) (h : -2147483648 ≤ x ∧ x < 2147483648) : wrap32 x = x := by
  unfold wrap32
  omega

theorem wrap32_add_left (x y : Int) : wrap32 (wrap32 x + y) = wrap32 (x + y) := by
  unfold wrap32
  omega

theorem wrap32_emod (x : Int) : wrap32 x % 4294967296 = x % 4294967296 := by
  unfold wrap32
  omega

theorem cint_add_assoc (a b c : CInt) :
    cint_add (cint_add a b) c = cint_add a (cint_add b c) := by
  apply Subtype.ext
  show wrap32 (wrap32 (a.val + b.val) + c.val) = wrap32 (a.val + wrap32 (b.val + c.val))
  unfold wrap32
  omega

theorem cint_add_zero (a : CInt) : cint_add a cint_zero = a := by
  apply Subtype.ext
  show wrap32 (a.val + 0) = a.val
  rw [Int.add_zero]
  exact wrap32_of_range a.val a.property

/-- The sequential fold with wrapping addition holds the wrapped mathematical sum. -/
theorem accumulate_cint_val (S : List CInt) (v : CInt) :
    (accumulate cint_add S v).val = wrap32 (v.val + (S.map Subtype.val).sum) := by
  induction S generalizing v with
  | nil => simp [accumulate, wrap32_of_range v.val v.property]
  | cons x xs ih =>
    rw [accumulate, ih]
    show wrap32 (wrap32 (v.val + x.val) + _) = _
    rw [wrap32_add_left, List.map_cons, List.sum_cons, Int.add_assoc]

theorem multi_accumulate_cint (S : List CInt) (v : CInt) (P : Nat) (hP : 1 ≤ P) :
    multi_accumulate_with cint_add cint_zero P S v = accumulate cint_add S v :=
  multi_accumulate_with_eq cint_add cint_zero cint_add_assoc cint_add_zero P hP S v

/-! ## The claims -/

/-- C1: for every sequence S of integers, every seed v and every parallelism
degree P >= 1, multi_accumulate returns v plus the sum of the elements of S,
which is the value of the sequential std::accumulate(S, v); the same holds
for the degree derived from any reported hardware concurrency. -/
theorem multi_accumulate_int_eq_sum (S : List Int) (v : Int) (P : Nat) (hP : 1 ≤ P) :
    multi_accumulate_with int_add 0 P S v = v + S.sum ∧
    multi_accumulate_with int_add 0 P S v = accumulate int_add S v ∧
    (∀ hardware_threads : Nat, multi_accumulate int_add 0 hardware_threads S v = v + S.sum) := by
  have key : ∀ Q : Nat, 1 ≤ Q →
      multi_accumulate_with int_add 0 Q S v = accumulate int_add S v := fun Q hQ =>
    multi_accumulate_with_eq int_add 0 (fun a b c => Int.add_assoc a b c)
      (fun a => Int.add_zero a) Q hQ S v
  refine ⟨?_, key P hP, ?_⟩
  · rw [key P hP, accumulate_int_add]
  · intro hw
    rw [multi_accumulate, key _ (num_threads_pos hw), accumulate_int_add]

theorem multi_accumulate_int_eq_sum_witness :
    1 ≤ 3 ∧
    (multi_accumulate_with int_add 0 3 [5, -2, 7, 11] 10 = 10 + ([5, -2, 7, 11] : List Int).sum ∧
     multi_accumulate_with int_add 0 3 [5, -2, 7, 11] 10 = accumulate int_add [5, -2, 7, 11] 10 ∧
     (∀ hardware_threads : Nat,
        multi_accumulate int_add 0 hardware_threads [5, -2, 7, 11] 10
          = 10 + ([5, -2, 7, 11] : List Int).sum)) :=
  ⟨by decide, multi_accumulate_int_eq_sum [5, -2, 7, 11] 10 3 (by decide)⟩

/-- C2: for every sequence S and every P >= 1 the P blocks built by
multi_accumulate are: block i (i <= P-2) is [i*block_size, (i+1)*block_size)
with block_size = length / P and block P-1 is [(P-1)*block_size, length);
every block is a valid range inside S, each block ends where the next one
starts, an earlier block ends no later than a later one starts, every index of
S lies in exactly one block, and the concatenation of the blocks in index
order is S. -/
theorem blocks_partition {T : Type} (S : List T) (P : Nat) (hP : 1 ≤ P) :
    (blocks S.length P).length = P ∧
    (∀ i, i < P - 1 → (blocks S.length P)[i]? =
      some ⟨i * (S.length / P), (i + 1) * (S.length / P), i⟩) ∧
    (blocks S.length P)[P - 1]? = some ⟨(P - 1) * (S.length / P), S.length, P - 1⟩ ∧
    (∀ b ∈ blocks S.length P, b.first ≤ b.last ∧ b.last ≤ S.length) ∧
    (∀ (i : Nat) (b c : Block), (blocks S.length P)[i]? = some b → (blocks S.length P)[i + 1]? = some c →
      b.last = c.first) ∧
    (∀ (i j : Nat) (b c : Block), i < j → (blocks S.length P)[i]? = some b → (blocks S.length P)[j]? = some c →
      b.last ≤ c.first) ∧
    (∀ k, k < S.length →
      ∃! i : Nat, ∃ b : Block, (blocks S.length P)[i]? = some b ∧ b.first ≤ k ∧ k < b.last) ∧
    ((blocks S.length P).map (fun b => range_of S b.first b.last)).flatten = S := by
  have hle : ∀ k, k ≤ P - 1 → k * (S.length / P) ≤ S.length :=
    fun k hk => cursor_le S.length P k hP hk
  have hmono : ∀ i j : Nat, i ≤ j → i * (S.length / P) ≤ j * (S.length / P) :=
    fun i j hij => Nat.mul_le_mul_right _ hij
  have hdisj : ∀ (i j : Nat) (b c : Block), i < j → (blocks S.length P)[i]? = some b →
      (blocks S.length P)[j]? = some c → b.last ≤ c.first := by
    intro i j b c hij hb hc
    rcases blocks_getElem?_cases _ _ _ _ hb with ⟨hi, rfl⟩ | ⟨hi, rfl⟩
    · rcases blocks_getElem?_cases _ _ _ _ hc with ⟨_, rfl⟩ | ⟨hj, rfl⟩
      · exact hmono (i + 1) j hij
      · exact hmono (i + 1) (P - 1) (by omega)
    · rcases blocks_getElem?_cases _ _ _ _ hc with ⟨hj, rfl⟩ | ⟨hj, rfl⟩ <;> omega
  refine ⟨blocks_length _ _ hP, fun i hi => blocks_getElem?_lt _ _ _ hi,
    blocks_getElem?_last _ _, ?_, ?_, hdisj, ?_, flatten_blocks T S P⟩
  · intro b hb
    obtain ⟨i, hi⟩ := List.getElem?_of_mem hb
    rcases blocks_getElem?_cases _ _ _ _ hi with ⟨hi, rfl⟩ | ⟨hi, rfl⟩
    · exact ⟨hmono i (i + 1) (by omega), hle (i + 1) (by omega)⟩
    · exact ⟨hle (P - 1) (le_refl _), le_refl _⟩
  · intro i b c hb hc
    rcases blocks_getElem?_cases _ _ _ _ hb with ⟨hi, rfl⟩ | ⟨hi, rfl⟩
    · rcases blocks_getElem?_cases _ _ _ _ hc with ⟨_, rfl⟩ | ⟨hj, rfl⟩
      · rfl
      · show (i + 1) * (S.length / P) = (P - 1) * (S.length / P)
        rw [hj]
    · rcases blocks_getElem?_cases _ _ _ _ hc with ⟨hj, rfl⟩ | ⟨hj, rfl⟩ <;> omega
  · intro k hk
    have huniq : ∀ i j : Nat, (∃ b : Block, (blocks S.length P)[i]? = some b ∧ b.first ≤ k ∧ k < b.last) →
        (∃ c : Block, (blocks S.length P)[j]? = some c ∧ c.first ≤ k ∧ k < c.last) → ¬ i < j := by
      rintro i j ⟨b, hb, _, hb2⟩ ⟨c, hc, hc1, _⟩ hij
      have := hdisj i j b c hij hb hc
      omega
    have hex : ∃ i : Nat, ∃ b : Block, (blocks S.length P)[i]? = some b ∧ b.first ≤ k ∧ k < b.last := by
      by_cases hlast : (P - 1) * (S.length / P) ≤ k
      · exact ⟨P - 1, _, blocks_getElem?_last _ _, hlast, hk⟩
      · have hpos : 0 < S.length / P := by
          rcases Nat.eq_zero_or_pos (S.length / P) with h0 | h0
          · rw [h0] at hlast; omega
          · exact h0
        have hq : k / (S.length / P) < P - 1 := by
          rw [Nat.div_lt_iff_lt_mul hpos]; omega
        refine ⟨k / (S.length / P), _, blocks_getElem?_lt _ _ _ hq, ?_, ?_⟩
        · exact Nat.div_mul_le_self k _
        · show k < (k / (S.length / P) + 1) * (S.length / P)
          have h1 := Nat.div_add_mod k (S.length / P)
          have h2 := Nat.mod_lt k hpos
          have h3 : (k / (S.length / P) + 1) * (S.length / P)
              = S.length / P * (k / (S.length / P)) + S.length / P := by ring
          omega
    obtain ⟨i, hi⟩ := hex
    refine ⟨i, hi, fun j hj => ?_⟩
    have h1 := huniq i j hi hj
    have h2 := huniq j i hj hi
    omega

theorem blocks_partition_witness :
    1 ≤ 3 ∧
    ((blocks [10, 20, 30, 40, 50, 60, 70].length 3).length = 3 ∧
    (∀ i, i < 3 - 1 → (blocks [10, 20, 30, 40, 50, 60, 70].length 3)[i]? =
      some ⟨i * ([10, 20, 30, 40, 50, 60, 70].length / 3),
        (i + 1) * ([10, 20, 30, 40, 50, 60, 70].length / 3), i⟩) ∧
    (blocks [10, 20, 30, 40, 50, 60, 70].length 3)[3 - 1]? =
      some ⟨(3 - 1) * ([10, 20, 30, 40, 50, 60, 70].length / 3),
        [10, 20, 30, 40, 50, 60, 70].length, 3 - 1⟩ ∧
    (∀ b ∈ blocks [10, 20, 30, 40, 50, 60, 70].length 3,
      b.first ≤ b.last ∧ b.last ≤ [10, 20, 30, 40, 50, 60, 70].length) ∧
    (∀ (i : Nat) (b c : Block), (blocks [10, 20, 30, 40, 50, 60, 70].length 3)[i]? = some b →
      (blocks [10, 20, 30, 40, 50, 60, 70].length 3)[i + 1]? = some c → b.last = c.first) ∧
    (∀ (i j : Nat) (b c : Block), i < j → (blocks [10, 20, 30, 40, 50, 60, 70].length 3)[i]? = some b →
      (blocks [10, 20, 30, 40, 50, 60, 70].length 3)[j]? = some c → b.last ≤ c.first) ∧
    (∀ k, k < [10, 20, 30, 40, 50, 60, 70].length →
      ∃! i : Nat, ∃ b : Block, (blocks [10, 20, 30, 40, 50, 60, 70].length 3)[i]? = some b ∧
        b.first ≤ k ∧ k < b.last) ∧
    ((blocks [10, 20, 30, 40, 50, 60, 70].length 3).map
      (fun b => range_of [10, 20, 30, 40, 50, 60, 70] b.first b.last)).flatten
      = [10, 20, 30, 40, 50, 60, 70]) :=
  ⟨by decide, blocks_partition [10, 20, 30, 40, 50, 60, 70] 3 (by decide)⟩

/-- C3, the claim as stated fails in both directions. Integer addition with
a default value of 1 is associative and commutative, and multi_accumulate on
the empty sequence with init 0 and P = 1 returns 1 where the sequential fold
returns 0. Concatenation with the empty default is not commutative, and
multi_accumulate equals the sequential fold for all sequences, init values
and P >= 1. -/
theorem assoc_comm_iff_counterexample :
    ((∀ a b c : Int, int_add (int_add a b) c = int_add a (int_add b c)) ∧
      (∀ a b : Int, int_add a b = int_add b a) ∧
      multi_accumulate_with int_add 1 1 [] 0 = 1 ∧
      accumulate int_add [] 0 = 0) ∧
    ((∀ (S : List (List Nat)) (init : List Nat) (P : Nat), 1 ≤ P →
        multi_accumulate_with seq_append [] P S init = accumulate seq_append S init) ∧
      seq_append [1] [2] ≠ seq_append [2] [1]) := by
  refine ⟨⟨fun a b c => Int.add_assoc a b c, fun a b => Int.add_comm a b, by decide,
    by decide⟩, ?_, by decide⟩
  intro S init P hP
  exact multi_accumulate_with_eq seq_append [] (fun a b c => List.append_assoc a b c)
    (fun a => List.append_nil a) P hP S init

/-- C3 as amended: for a generic addable type, when the operation is
associative and the default value is a right identity of it, the result of
multi_accumulate equals the sequential left-to-right fold for all sequences,
all init values and all P >= 1 (commutativity is not needed); and when the
equality holds for all sequences, init values and P >= 1, the default value
is a right identity of the operation. -/
theorem multi_accumulate_eq_fold_of_assoc {T : Type} (add : T → T → T) (dflt : T) :
    ((∀ a b c, add (add a b) c = add a (add b c)) → (∀ a, add a dflt = a) →
      ∀ (S : List T) (init : T) (P : Nat), 1 ≤ P →
        multi_accumulate_with add dflt P S init = accumulate add S init) ∧
    ((∀ (S : List T) (init : T) (P : Nat), 1 ≤ P →
        multi_accumulate_with add dflt P S init = accumulate add S init) →
      ∀ a, add a dflt = a) := by
  refine ⟨fun hassoc hid S init P hP =>
    multi_accumulate_with_eq add dflt hassoc hid P hP S init, fun h a => ?_⟩
  exact h [] a 1 (le_refl 1)

theorem multi_accumulate_eq_fold_of_assoc_witness :
    multi_accumulate_with seq_append [] 2 [[1], [2, 3], [4]] [0] =
      accumulate seq_append [[1], [2, 3], [4]] [0] :=
  (multi_accumulate_eq_fold_of_assoc seq_append []).1
    (fun a b c => List.append_assoc a b c) (fun a => List.append_nil a)
    [[1], [2, 3], [4]] [0] 2 (by decide)

/-- C4: for every seed v and every P >= 1, multi_accumulate on the empty
sequence returns v; block_size is 0, every block is empty and every slot
keeps the default 0. -/
theorem multi_accumulate_empty (v : Int) (P : Nat) (hP : 1 ≤ P) :
    multi_accumulate_with int_add 0 P [] v = v ∧
    ([] : List Int).length / P = 0 ∧
    (blocks ([] : List Int).length P).length = P ∧
    (∀ b ∈ blocks ([] : List Int).length P, b.first = b.last) ∧
    slot_results int_add 0 P [] = List.replicate P 0 := by
  refine ⟨?_, by simp, blocks_length _ _ hP, ?_, ?_⟩
  · rw [int_fold_of_blocks [] v P hP]
    simp
  · intro b hb
    obtain ⟨i, hi⟩ := List.getElem?_of_mem hb
    rcases blocks_getElem?_cases _ _ _ _ hi with ⟨_, rfl⟩ | ⟨_, rfl⟩ <;> simp
  · rw [slot_results_eq int_add 0 P [] hP]
    apply List.ext_getElem?
    intro i
    by_cases hi : i < P
    · have hlen := blocks_length ([] : List Int).length P hP
      have hi2 : i < (blocks ([] : List Int).length P).length := by omega
      rw [List.getElem?_map, List.getElem?_eq_getElem hi2]
      simp [List.getElem?_replicate, hi, accumulate_block, range_of, accumulate]
    · have hlen := blocks_length ([] : List Int).length P hP
      rw [List.getElem?_eq_none (by rw [List.length_map, hlen]; omega),
        List.getElem?_eq_none (by rw [List.length_replicate]; omega)]

theorem multi_accumulate_empty_witness :
    1 ≤ 8 ∧
    (multi_accumulate_with int_add 0 8 [] 42 = 42 ∧
    ([] : List Int).length / 8 = 0 ∧
    (blocks ([] : List Int).length 8).length = 8 ∧
    (∀ b ∈ blocks ([] : List Int).length 8, b.first = b.last) ∧
    slot_results int_add 0 8 [] = List.replicate 8 0) :=
  ⟨by decide, multi_accumulate_empty 42 8 (by decide)⟩

/-- C5: for every integer sequence S shorter than the parallelism degree P,
block_size is 0, each of the first P-1 blocks is the empty range [0, 0) and
leaves its slot at the default 0, the final block is [0, length), the whole of
S, its slot ends as the sum of S, and multi_accumulate returns v plus the sum
of S. -/
theorem multi_accumulate_short (S : List Int) (v : Int) (P : Nat) (h : S.length < P) :
    S.length / P = 0 ∧
    (∀ i, i < P - 1 → (blocks S.length P)[i]? = some ⟨0, 0, i⟩) ∧
    (∀ i, i < P - 1 → (slot_results int_add 0 P S)[i]? = some 0) ∧
    (blocks S.length P)[P - 1]? = some ⟨0, S.length, P - 1⟩ ∧
    range_of S 0 S.length = S ∧
    (slot_results int_add 0 P S)[P - 1]? = some S.sum ∧
    multi_accumulate_with int_add 0 P S v = v + S.sum := by
  have hP : 1 ≤ P := by omega
  have hbs : S.length / P = 0 := Nat.div_eq_of_lt h
  have hlen := blocks_length S.length P hP
  have hfirst : ∀ i, i < P - 1 → (blocks S.length P)[i]? = some ⟨0, 0, i⟩ := by
    intro i hi
    rw [blocks_getElem?_lt _ _ _ hi, hbs]
    simp
  have hlast : (blocks S.length P)[P - 1]? = some ⟨0, S.length, P - 1⟩ := by
    rw [blocks_getElem?_last, hbs]
    simp
  have hwhole : range_of S 0 S.length = S := by simp [range_of]
  refine ⟨hbs, hfirst, ?_, hlast, hwhole, ?_, int_fold_of_blocks S v P hP⟩
  · intro i hi
    rw [slot_results_eq int_add 0 P S hP, List.getElem?_map, hfirst i hi]
    simp [accumulate_block, range_of, accumulate]
  · rw [slot_results_eq int_add 0 P S hP, List.getElem?_map, hlast]
    simp only [Option.map_some', accumulate_block, hwhole, accumulate_int_add]
    simp

theorem multi_accumulate_short_witness :
    ([1, 2, 3, 4, 5, 6, 7] : List Int).length < 8 ∧
    multi_accumulate_with int_add 0 8 [1, 2, 3, 4, 5, 6, 7] 0 = 28 ∧
    (blocks ([1, 2, 3, 4, 5, 6, 7] : List Int).length 8)[0]? = some ⟨0, 0, 0⟩ ∧
    (slot_results int_add 0 8 [1, 2, 3, 4, 5, 6, 7])[0]? = some 0 :=
  have h := multi_accumulate_short [1, 2, 3, 4, 5, 6, 7] 0 8 (by decide)
  ⟨by decide, h.2.2.2.2.2.2.trans (by decide), h.2.1 0 (by decide), h.2.2.1 0 (by decide)⟩

/-- C6: for every integer sequence S and seed v the result of multi_accumulate
is the same for any two parallelism degrees P1 >= 1 and P2 >= 1. -/
theorem multi_accumulate_degree_independent (S : List Int) (v : Int) (P1 P2 : Nat)
    (h1 : 1 ≤ P1) (h2 : 1 ≤ P2) :
    multi_accumulate_with int_add 0 P1 S v = multi_accumulate_with int_add 0 P2 S v := by
  rw [int_fold_of_blocks S v P1 h1, int_fold_of_blocks S v P2 h2]

set_option maxRecDepth 100000 in
theorem multi_accumulate_degree_independent_witness :
    1 ≤ 8 ∧ 1 ≤ 1 ∧
    multi_accumulate_with int_add 0 8 (List.replicate 100 9999) 0 =
      multi_accumulate_with int_add 0 1 (List.replicate 100 9999) 0 ∧
    multi_accumulate_with int_add 0 1 (List.replicate 100 9999) 0 = 999900 ∧
    multi_accumulate_with int_add 0 8 (List.replicate 100 9999) 0 = 999900 :=
  ⟨by decide, by decide,
    multi_accumulate_degree_independent (List.replicate 100 9999) 0 8 1 (by decide) (by decide),
    by decide, by decide⟩

/-- C7: the parallelism degree is 2 when the reported hardware concurrency is 0
and the reported value otherwise; it is at least 1, so the 64-bit unsigned
value of num_threads - 1 is the mathematical one (no wrap-around) and the
divisor of length / num_threads is not zero. -/
theorem num_threads_spec (hardware_threads : Nat) (hw : hardware_threads < 2 ^ 64) :
    (hardware_threads = 0 → num_threads hardware_threads = 2) ∧
    (hardware_threads ≠ 0 → num_threads hardware_threads = hardware_threads) ∧
    1 ≤ num_threads hardware_threads ∧
    threads_size (num_threads hardware_threads) + 1 = num_threads hardware_threads ∧
    threads_size (num_threads hardware_threads) = num_threads hardware_threads - 1 ∧
    num_threads hardware_threads ≠ 0 := by
  have hpos := num_threads_pos hardware_threads
  have hlt : num_threads hardware_threads < 2 ^ 64 := by
    unfold num_threads
    split <;> omega
  have hsz : threads_size (num_threads hardware_threads)
      = num_threads hardware_threads - 1 := by
    unfold threads_size
    omega
  refine ⟨fun h0 => by simp [num_threads, h0], fun h0 => by simp [num_threads, h0], hpos,
    by omega, hsz, by omega⟩

theorem num_threads_spec_witness :
    (0 : Nat) < 2 ^ 64 ∧ num_threads 0 = 2 ∧ threads_size (num_threads 0) = 1 :=
  have h := num_threads_spec 0 (by decide)
  ⟨by decide, h.1 rfl, h.2.2.2.2.1⟩

/-- C8: accumulate_block on a range [first, last) and a slot holding r leaves
the slot holding the left-to-right fold of the elements of the range starting
from r: the empty range leaves r, a range extended by one element x at its end
gives the value for the shorter range combined with x on the right, and the
whole is the left fold of the elements from r. -/
theorem accumulate_block_spec {T : Type} (add : T → T → T) (S : List T)
    (first : Nat) (r : T) :
    accumulate_block add S first first r = r ∧
    (∀ (last : Nat) (x : T), first ≤ last → S[last]? = some x →
      accumulate_block add S first (last + 1) r =
        add (accumulate_block add S first last r) x) ∧
    (∀ last : Nat, accumulate_block add S first last r =
      List.foldl add r ((S.take last).drop first)) := by
  refine ⟨?_, ?_, ?_⟩
  · have h : range_of S first first = [] := by
      simp [range_of, List.drop_eq_nil_iff, List.length_take]
    simp [accumulate_block, h, accumulate]
  · intro last x hfl hx
    simp only [accumulate_block]
    rw [range_of_succ S first last x hfl hx, accumulate_append]
    rfl
  · intro last
    simp [accumulate_block, range_of, accumulate_eq_foldl]

/-- C9: two runs of multi_accumulate on the same sequence with the same seed
and the same parallelism degree return the same value, whatever the order in
which each run processes its blocks: the value is that of the run in spawn
order, a function of the sequence, the seed and the degree. -/
theorem multi_accumulate_deterministic {T : Type} (add : T → T → T) (dflt : T)
    (P : Nat) (S : List T) (v : T) (sched1 sched2 : List Block)
    (h1 : sched1.Perm (blocks S.length P)) (h2 : sched2.Perm (blocks S.length P)) :
    multi_accumulate_sched add dflt P S v sched1 =
      multi_accumulate_sched add dflt P S v sched2 ∧
    multi_accumulate_sched add dflt P S v sched1 = multi_accumulate_with add dflt P S v := by
  have e1 := run_blocks_perm add S (List.replicate P dflt) sched1 _ h1
    (blocks_slot_nodup S.length P)
  have e2 := run_blocks_perm add S (List.replicate P dflt) sched2 _ h2
    (blocks_slot_nodup S.length P)
  simp only [multi_accumulate_sched, multi_accumulate_with, slot_results, e1, e2, and_self]

theorem multi_accumulate_deterministic_witness :
    (blocks [4, 8, 15, 16, 23, 42].length 4).reverse.Perm (blocks [4, 8, 15, 16, 23, 42].length 4) ∧
    (blocks [4, 8, 15, 16, 23, 42].length 4).Perm (blocks [4, 8, 15, 16, 23, 42].length 4) ∧
    multi_accumulate_sched int_add 0 4 [4, 8, 15, 16, 23, 42] 1
        (blocks [4, 8, 15, 16, 23, 42].length 4).reverse =
      multi_accumulate_sched int_add 0 4 [4, 8, 15, 16, 23, 42] 1
        (blocks [4, 8, 15, 16, 23, 42].length 4) ∧
    multi_accumulate_sched int_add 0 4 [4, 8, 15, 16, 23, 42] 1
        (blocks [4, 8, 15, 16, 23, 42].length 4).reverse =
      multi_accumulate_with int_add 0 4 [4, 8, 15, 16, 23, 42] 1 :=
  ⟨List.reverse_perm _, List.Perm.refl _,
    multi_accumulate_deterministic int_add 0 4 [4, 8, 15, 16, 23, 42] 1 _ _
      (List.reverse_perm _) (List.Perm.refl _)⟩

/-- C11: for every length n and P >= 1, each of the first P-1 blocks holds
exactly block_size = n / P elements, and the final block holds
n - (P-1) * (n / P) = n / P + n mod P elements, so the remainder of the
division goes to the last block only; with P = 1 there is no spawned block and
the final block is the whole range. -/
theorem block_sizes {T : Type} (S : List T) (P : Nat) (hP : 1 ≤ P) :
    (∀ (i : Nat) (b : Block), i < P - 1 → (blocks S.length P)[i]? = some b →
      b.last - b.first = S.length / P ∧
      (range_of S b.first b.last).length = S.length / P) ∧
    (∀ b : Block, (blocks S.length P)[P - 1]? = some b →
      b.last - b.first = S.length - (P - 1) * (S.length / P) ∧
      b.last - b.first = S.length / P + S.length % P ∧
      (range_of S b.first b.last).length = S.length / P + S.length % P) ∧
    (P = 1 → blocks S.length P = [⟨0, S.length, 0⟩] ∧ range_of S 0 S.length = S) := by
  have hdm := Nat.div_add_mod S.length P
  have hPm : P * (S.length / P) = (P - 1) * (S.length / P) + S.length / P := by
    have hP1 : P = (P - 1) + 1 := by omega
    nth_rewrite 1 [hP1]
    rw [Nat.add_mul, Nat.one_mul]
  refine ⟨?_, ?_, ?_⟩
  · intro i b hi hb
    rw [blocks_getElem?_lt _ _ _ hi] at hb
    cases hb
    have hle := cursor_le S.length P (i + 1) hP (by omega)
    have hsz : (i + 1) * (S.length / P) - i * (S.length / P) = S.length / P := by
      rw [Nat.add_mul, Nat.one_mul]
      exact Nat.add_sub_cancel_left _ _
    refine ⟨hsz, ?_⟩
    simp only [range_of, List.length_drop, List.length_take]
    rw [Nat.min_eq_left hle]
    exact hsz
  · intro b hb
    rw [blocks_getElem?_last] at hb
    cases hb
    have hle := cursor_le S.length P (P - 1) hP (le_refl _)
    have hrem : S.length - (P - 1) * (S.length / P) = S.length / P + S.length % P := by
      generalize S.length / P = q at hdm hPm hle
      generalize S.length % P = r at hdm
      generalize (P - 1) * q = c at hPm hle
      generalize P * q = d at hdm hPm
      omega
    refine ⟨rfl, hrem, ?_⟩
    simp only [range_of, List.length_drop, List.length_take, Nat.min_self]
    exact hrem
  · intro h1
    subst h1
    refine ⟨by simp [blocks_eq], by simp [range_of]⟩

theorem block_sizes_witness :
    1 ≤ 3 ∧
    (∀ (i : Nat) (b : Block), i < 3 - 1 →
      (blocks [10, 20, 30, 40, 50, 60, 70, 80].length 3)[i]? = some b →
      b.last - b.first = [10, 20, 30, 40, 50, 60, 70, 80].length / 3 ∧
      (range_of [10, 20, 30, 40, 50, 60, 70, 80] b.first b.last).length
        = [10, 20, 30, 40, 50, 60, 70, 80].length / 3) ∧
    (∀ b : Block, (blocks [10, 20, 30, 40, 50, 60, 70, 80].length 3)[3 - 1]? = some b →
      b.last - b.first = 4) :=
  have h := block_sizes [10, 20, 30, 40, 50, 60, 70, 80] 3 (by decide)
  ⟨by decide, h.1, fun b hb => (h.2.1 b hb).2.1⟩

/-- C12: for every length n and P >= 1 the cursor never passes the end of the
range: after k passes of the launching loop (k <= P-1) it is at offset
k * (n / P) <= n, the advance of each pass ends inside the range, the loop as
run by the function ends at the cursor of pass P-1, every block is a valid
range (first <= last <= n), and every slot index used is below P. -/
theorem cursor_in_range (n P : Nat) (hP : 1 ≤ P) :
    (∀ k : Nat, k ≤ P - 1 →
      (launch_after (n / P) k).1 = k * (n / P) ∧ (launch_after (n / P) k).1 ≤ n) ∧
    (∀ k : Nat, k < P - 1 → (launch_after (n / P) k).1 + n / P ≤ n) ∧
    launch (n / P) P = launch_after (n / P) (P - 1) ∧
    (∀ b ∈ blocks n P, b.first ≤ b.last ∧ b.last ≤ n ∧ b.slot < P) ∧
    (blocks n P).map Block.slot = List.range P := by
  have hcur : ∀ k : Nat, (launch_after (n / P) k).1 = k * (n / P) := by
    intro k
    simp [launch_after, launch_loop_eq]
  refine ⟨fun k hk => ⟨hcur k, ?_⟩, ?_, rfl, ?_, ?_⟩
  · rw [hcur k]
    exact cursor_le n P k hP hk
  · intro k hk
    rw [hcur k]
    have h := cursor_le n P (k + 1) hP (by omega)
    rw [Nat.add_mul, Nat.one_mul] at h
    exact h
  · intro b hb
    obtain ⟨i, hi⟩ := List.getElem?_of_mem hb
    rcases blocks_getElem?_cases _ _ _ _ hi with ⟨hi, rfl⟩ | ⟨hi, rfl⟩
    · exact ⟨Nat.mul_le_mul_right _ (by omega), cursor_le n P (i + 1) hP (by omega),
        by show i < P; omega⟩
    · exact ⟨cursor_le n P (P - 1) hP (le_refl _), le_refl _, by show P - 1 < P; omega⟩
  · rw [blocks_map_slot]
    congr 1
    omega

theorem cursor_in_range_witness :
    1 ≤ 8 ∧
    (launch_after (7 / 8) 7).1 ≤ 7 ∧
    (∀ b ∈ blocks 7 8, b.first ≤ b.last ∧ b.last ≤ 7 ∧ b.slot < 8) :=
  have h := cursor_in_range 7 8 (by decide)
  ⟨by decide, (h.1 7 (by decide)).2, h.2.2.2.1⟩

/-- C13: for every sequence S, seed v and P >= 1, block i names slot i;
running it changes no other slot and folds the elements of block i left to
right onto the value of slot i, so that slot i ends as the default value
folded with the elements of block i; the returned value is the left fold of
the P slots in index order starting from the seed, and the slots and the
returned value are the same for every order in which the blocks are run. -/
theorem slot_frame_and_fold {T : Type} (add : T → T → T) (dflt : T) (S : List T) (v : T)
    (P : Nat) (hP : 1 ≤ P) :
    (∀ (i : Nat) (b : Block), (blocks S.length P)[i]? = some b →
      b.slot = i ∧
      (∀ (results : List T) (j : Nat), j ≠ i →
        (run_block add S results b)[j]? = results[j]?) ∧
      (∀ results : List T, (run_block add S results b)[i]? =
        results[i]?.map (fun r => List.foldl add r (range_of S b.first b.last))) ∧
      (slot_results add dflt P S)[i]? =
        some (List.foldl add dflt (range_of S b.first b.last))) ∧
    (slot_results add dflt P S).length = P ∧
    multi_accumulate_with add dflt P S v = List.foldl add v (slot_results add dflt P S) ∧
    (∀ sched : List Block, sched.Perm (blocks S.length P) →
      run_blocks add S (List.replicate P dflt) sched = slot_results add dflt P S ∧
      multi_accumulate_sched add dflt P S v sched =
        List.foldl add v (slot_results add dflt P S)) := by
  refine ⟨?_, ?_, ?_, ?_⟩
  · intro i b hb
    have hslot := blocks_slot _ _ _ _ hb
    refine ⟨hslot, ?_, ?_, ?_⟩
    · intro results j hj
      rw [run_block, hslot]
      exact List.getElem?_modify_ne _ _ (Ne.symm hj)
    · intro results
      rw [run_block, hslot, List.getElem?_modify_eq]
      congr 1
      funext r
      simp [accumulate_block, accumulate_eq_foldl]
    · rw [slot_results_eq add dflt P S hP, List.getElem?_map, hb]
      simp [accumulate_block, accumulate_eq_foldl]
  · simp [slot_results, run_blocks_length]
  · rw [multi_accumulate_with, accumulate_eq_foldl]
  · intro sched hperm
    have e := run_blocks_perm add S (List.replicate P dflt) sched _ hperm
      (blocks_slot_nodup S.length P)
    refine ⟨e, ?_⟩
    rw [multi_accumulate_sched, e, accumulate_eq_foldl]
    rfl

theorem slot_frame_and_fold_witness :
    1 ≤ 3 ∧
    (slot_results int_add 0 3 [5, -2, 7, 11]).length = 3 ∧
    multi_accumulate_with int_add 0 3 [5, -2, 7, 11] 10 =
      List.foldl int_add 10 (slot_results int_add 0 3 [5, -2, 7, 11]) ∧
    slot_results int_add 0 3 [5, -2, 7, 11] = [5, -2, 18] :=
  have h := slot_frame_and_fold int_add 0 [5, -2, 7, 11] 10 3 (by decide)
  ⟨by decide, h.2.1, h.2.2.1, by decide⟩

/-- C14: with the accumulator a 32-bit int whose addition wraps modulo 2^32,
for every sequence S, seed v and P >= 1 the result of multi_accumulate equals
the result of the sequential std::accumulate, overflowing sums included: both
are v plus the sum of S wrapped into 32 bits, congruent to v plus the sum of S
modulo 2^32. -/
theorem multi_accumulate_wraps (S : List CInt) (v : CInt) (P : Nat) (hP : 1 ≤ P) :
    multi_accumulate_with cint_add cint_zero P S v = accumulate cint_add S v ∧
    (accumulate cint_add S v).val = wrap32 (v.val + (S.map Subtype.val).sum) ∧
    (multi_accumulate_with cint_add cint_zero P S v).val =
      wrap32 (v.val + (S.map Subtype.val).sum) ∧
    (multi_accumulate_with cint_add cint_zero P S v).val % 4294967296 =
      (v.val + (S.map Subtype.val).sum) % 4294967296 := by
  have h := multi_accumulate_cint S v P hP
  refine ⟨h, accumulate_cint_val S v, ?_, ?_⟩
  · rw [h, accumulate_cint_val]
  · rw [h, accumulate_cint_val, wrap32_emod]

theorem multi_accumulate_wraps_witness :
    1 ≤ 2 ∧
    multi_accumulate_with cint_add cint_zero 2
        [⟨2147483647, by decide⟩, ⟨1, by decide⟩, ⟨5, by decide⟩] cint_zero =
      accumulate cint_add [⟨2147483647, by decide⟩, ⟨1, by decide⟩, ⟨5, by decide⟩] cint_zero ∧
    (multi_accumulate_with cint_add cint_zero 2
        [⟨2147483647, by decide⟩, ⟨1, by decide⟩, ⟨5, by decide⟩] cint_zero).val
      = -2147483643 :=
  have h := multi_accumulate_wraps
    [⟨2147483647, by decide⟩, ⟨1, by decide⟩, ⟨5, by decide⟩] cint_zero 2 (by decide)
  ⟨by decide, h.1, by decide⟩

/-- C15: for the data set of main, 100000000 elements equal to 9999 summed
into an int starting at 0, the mathematical sum is 999900000000, larger than
the greatest int 2147483647; with wrap-around modulo 2^32 the single-threaded
result and the result of multi_accumulate, for any reported hardware
concurrency, are both -827379968. -/
theorem main_sum_wraps (hardware_threads : Nat) :
    (largeDataSet.map Subtype.val).sum = 999900000000 ∧
    (2147483647 : Int) < (largeDataSet.map Subtype.val).sum ∧
    (accumulate cint_add largeDataSet cint_zero).val = -827379968 ∧
    (multi_accumulate cint_add cint_zero hardware_threads largeDataSet cint_zero).val
      = -827379968 := by
  have hsum : (largeDataSet.map Subtype.val).sum = 999900000000 := by
    rw [largeDataSet, List.map_replicate, List.sum_replicate, nsmul_eq_mul]
    norm_num
  have hseq : (accumulate cint_add largeDataSet cint_zero).val = -827379968 := by
    rw [accumulate_cint_val, hsum]
    decide
  refine ⟨hsum, by rw [hsum]; decide, hseq, ?_⟩
  rw [multi_accumulate, multi_accumulate_cint _ _ _ (num_threads_pos hardware_threads)]
  exact hseq

/-- C16, the code at ten trials of one second each: the loop runs 10 trials
and accumulates 10 seconds in each total, and the averaged durations printed
are 10/8 = 5/4 seconds, not the total divided by the 10 trials run, which
is 1 second. -/
theorem main_averages_divide_by_eight :
    (List.range 10).length = 10 ∧
    main_loop (fun _ => 1) (fun _ => 1) = (10, 10) ∧
    main_averages (fun _ => 1) (fun _ => 1) = (5 / 4, 5 / 4) ∧
    (main_averages (fun _ => 1) (fun _ => 1)).1 ≠
      (main_loop (fun _ => 1) (fun _ => 1)).1 / 10 ∧
    (main_averages (fun _ => 1) (fun _ => 1)).2 ≠
      (main_loop (fun _ => 1) (fun _ => 1)).2 / 10 := by
  have hloop : main_loop (fun _ => 1) (fun _ => 1) = (10, 10) := by
    simp [main_loop, List.range_succ]
    norm_num
  refine ⟨by simp, hloop, ?_, ?_, ?_⟩ <;> simp only [main_averages, hloop] <;> norm_num

end ThreadAccumulate
